import Mathlib

/-!
Verification development for the B+ tree storage engine in `bplustree.py`
(the core of the icefalldb repository).  The Python source is shallowly
embedded: Python byte strings become `List Nat` (byte lists compared
bytewise, as Python 2 compares its strings), mutable node objects become
values of a `Node` structure threaded through the operations, the open
file becomes an association list from seek positions to stored node
records, and fallible Python code (raising exceptions) returns `Except`.
Each definition transcribes the correspondingly named Python function;
comments cite the source lines where a detail is easy to miss.
-/

set_option autoImplicit false

namespace BPT

universe u

/-- Byte string: the value of a Python 2 `str` (a sequence of bytes). -/
abbrev Bstr := List Nat

/-- Error kinds surfaced by the embedded operations.  `valueError`,
`keyError`, `indexError` model the Python exceptions of the same names;
`noRoom` models the string exception `NOROOMERROR`; `fuelOut` is a model
artifact marking exhaustion of recursion fuel (unreachable at the fuel
amounts used by the theorems below). -/
inductive PyErr where
  | valueError
  | keyError
  | indexError
  | noRoom
  | fuelOut
  deriving DecidableEq

/-- Python `list.insert(i, x)` for a non-negative index: inserts before
position `i`, appending when `i` is past the end (Python clamps). -/
def pyinsert {α : Type u} (i : Nat) (x : α) : List α → List α
  | [] => [x]
  | a :: l =>
    match i with
    | 0 => x :: a :: l
    | j + 1 => a :: pyinsert j x l

/-- Python `list.insert(i, x)` for a possibly negative index: a negative
index counts from the end and is clamped at 0, as Python does. -/
def pyinsertI {α : Type u} (i : Int) (x : α) (l : List α) : List α :=
  let j : Nat := if i < 0 then l.length - (-i).toNat else i.toNat
  pyinsert j x l

/-- Python `del l[i]` for a non-negative index; `none` models the
`IndexError` raised when `i` is out of range. -/
def pydel {α : Type u} (i : Nat) : List α → Option (List α)
  | [] => none
  | a :: l =>
    match i with
    | 0 => some l
    | j + 1 => (pydel j l).map (a :: ·)

/-- Index of the first occurrence of `x` in `l`; `none` when absent.
Models the combination `x in l` / `l.index(x)` used by the source. -/
def pyindex {α : Type u} [DecidableEq α] (l : List α) (x : α) : Option Nat :=
  match l with
  | [] => none
  | a :: l => if a = x then some 0 else (pyindex l x).map (· + 1)

/-- Bytewise lexicographic strict order on byte strings: exactly how
Python 2 compares two `str` values (a proper prefix is smaller). -/
def bstrLt : Bstr → Bstr → Bool
  | [], [] => false
  | [], _ :: _ => true
  | _ :: _, [] => false
  | a :: as, b :: bs => if a < b then true else if b < a then false else bstrLt as bs

/-- Python tuple comparison on `(key, value)` pairs, as used by `insort`
in the split paths of `BplusTree.set`. -/
def pairLt (a b : Bstr × Int) : Bool :=
  bstrLt a.1 b.1 || (a.1 == b.1 && decide (a.2 < b.2))

/-- The module-level `bisect(a, x, lo, hi)` of the source: upper-bound
binary search returning the index where `x` would be inserted to keep
`a` sorted (after any run of elements equal to `x`).  The comparison is
a parameter so that the same transcription serves the key lists
(`bstrLt`) and the entry-pair lists (`pairLt`). -/
def bisect {α : Type u} (lt : α → α → Bool) [Inhabited α]
    (a : List α) (x : α) (lo hi : Nat) : Nat :=
  if lo < hi then
    if lt x (a.getD ((lo + hi) / 2) default) then bisect lt a x lo ((lo + hi) / 2)
    else bisect lt a x ((lo + hi) / 2 + 1) hi
  else lo
termination_by hi - lo
decreasing_by
  · omega
  · omega

/-- The module-level `insort(a, x)`: its loop is textually the loop of
`bisect` over the whole list, after which `x` is inserted at the
resulting position. -/
def insort {α : Type u} (lt : α → α → Bool) [Inhabited α]
    (a : List α) (x : α) : List α :=
  pyinsert (bisect lt a x 0 a.length) x a

/-- Sentinel seek position meaning "no such offset" (`nilseek = -1`). -/
def nilseek : Int := -1

def Rootflag : Nat := 1
def Interiorflag : Nat := 2
def Freeflag : Nat := 3
def Leafflag : Nat := 4
def LeafandRootflag : Nat := 5

def Leafflags : List Nat := [Leafflag, LeafandRootflag]

def Interiorflags : List Nat := [Interiorflag, Rootflag]

/-- In-memory image of one B+ tree node (`class Node`).  `infile` and the
fifo back-reference of the source are kept outside the structure and
passed explicitly to the operations that need them; `dirty` is the
write-back flag used by the fifo machinery. -/
structure Node where
  flag : Nat
  size : Nat
  keylen : Nat
  position : Int
  validkeys : Int
  indices : List Int
  keys : List Bstr
  dirty : Bool
  deriving DecidableEq

/-- Record size of a node on disk (`self.storage` in `Node.__init__`),
with `sequence_overhead = len(dumps("")) = 5` and
`intsize = len(dumps(1)) = 5` for the marshal format modelled below. -/
def storageOf (size keylen : Nat) : Nat :=
  5 + 2 * 5 + (size + 1) * 5 + size * (5 + keylen)

/-- `Node.__init__(flag, size, keylen, position, infile)`.  The source
raises `ValueError` only when `size < 0`: the bound check `size > 255`
and the parity check `size % 2 == 1` are both commented out in the
source (lines 403-405). -/
def Node.init (flag : Nat) (size : Int) (keylen : Nat) (position : Int) :
    Except PyErr Node :=
  if size < 0 then .error .valueError
  else
    .ok { flag := flag
          size := size.toNat
          keylen := keylen
          position := position
          validkeys := if Interiorflags.contains flag then -1 else 0
          indices := List.replicate (size.toNat + 1) nilseek
          keys := List.replicate size.toNat []
          dirty := false }

/-- `Node.clone(position)` in the cache-disabled configuration: a fresh
node of the same shape at the given position (the constructor body,
which cannot fail since `size` is a `Nat` here). -/
def nodeClone (node : Node) (position : Int) : Node :=
  { flag := node.flag
    size := node.size
    keylen := node.keylen
    position := position
    validkeys := if Interiorflags.contains node.flag then -1 else 0
    indices := List.replicate (node.size + 1) nilseek
    keys := List.replicate node.size []
    dirty := false }

/-- `Node.clear()`: reinitialize the key and index arrays; an interior
node drops every index and enters the `validkeys = -1` state, a leaf
keeps its forward pointer `indices[size]` (the slice assignment
`indices[:size] = [-1]*size`). -/
def Node.clear (node : Node) : Node :=
  if Interiorflags.contains node.flag then
    { node with keys := List.replicate node.size []
                validkeys := -1
                indices := List.replicate (node.size + 1) nilseek }
  else
    { node with keys := List.replicate node.size []
                validkeys := 0
                indices := List.replicate node.size nilseek ++ node.indices.drop node.size }

/-- `Node.get_keys()`: the list of valid keys. -/
def Node.get_keys (node : Node) : List Bstr :=
  if node.validkeys ≤ 0 then [] else node.keys.take node.validkeys.toNat

/-- `Node.keys_indices(leftmost)`: pair up the (for interior nodes,
`leftmost`-prefixed) key list with the corresponding indices. -/
def Node.keys_indices (node : Node) (leftmost : Bstr) : List (Bstr × Int) :=
  let keys := if Interiorflags.contains node.flag
              then leftmost :: node.get_keys else node.get_keys
  keys.zip (node.indices.take keys.length)

/-- `Node.putfirstindex(index)`: install the leading child pointer of an
interior node that has none (`validkeys = -1`). -/
def Node.putfirstindex (node : Node) (index : Int) : Except PyErr Node :=
  if 0 ≤ node.validkeys then .error .valueError
  else .ok { node with indices := node.indices.set 0 index, validkeys := 0 }

/-- `Node.putposition(key, position)` (the body of the interior insert
`putnode`): raises `NOROOMERROR` when full, `ValueError` on a reinsert
of an existing key, otherwise inserts the pair in key order. -/
def Node.putposition (node : Node) (key : Bstr) (position : Int) :
    Except PyErr Node :=
  if Interiorflags.contains node.flag then
    let validkeys := node.validkeys
    if (node.size : Int) ≤ validkeys then .error .noRoom
    else if validkeys < 0 then
      .ok { node with validkeys := 0, indices := node.indices.set 0 position }
    else
      let dup := match pyindex node.keys key with
                 | some i => decide ((i : Int) < validkeys)
                 | none => false
      if dup then .error .valueError
      else
        let place := bisect bstrLt node.keys key 0 validkeys.toNat
        let keys1 := pyinsert place key node.keys
        let indices1 := pyinsert (place + 1) position node.indices
        match pydel (validkeys + 1).toNat keys1,
              pydel ((validkeys + 1).toNat + 1) indices1 with
        | some keys2, some indices2 =>
            .ok { node with keys := keys2, indices := indices2,
                            validkeys := validkeys + 1 }
        | _, _ => .error .indexError
  else .error .valueError

/-- `Node.putvalue(key, value)`: the leaf insert/overwrite.  When the
node is full and the key is new, the source only prints "node out of
room" — the `raise NOROOMERROR` on line 607 is commented out — and then
crashes with `IndexError` at `del keys[validkeys]` (index = list
length), which the `none` result of `pydel` records here. -/
def Node.putvalue (node : Node) (key : Bstr) (value : Int) :
    Except PyErr Node :=
  if Leafflags.contains node.flag then
    let validkeys := node.validkeys
    if validkeys ≤ 0 then
      .ok { node with indices := node.indices.set 0 value,
                      keys := node.keys.set 0 key, validkeys := 1 }
    else
      let placeO := match pyindex node.keys key with
                    | some p => if (validkeys : Int) ≤ p then none else some p
                    | none => none
      match placeO with
      | some place =>
          .ok { node with keys := node.keys.set place key,
                          indices := node.indices.set place value }
      | none =>
          -- the commented-out NOROOMERROR raise would fire here when
          -- `validkeys >= size`; instead execution reaches the dels below
          let place := bisect bstrLt node.keys key 0 validkeys.toNat
          match pydel validkeys.toNat node.keys,
                pydel validkeys.toNat node.indices with
          | some keys1, some indices1 =>
              .ok { node with keys := pyinsert place key keys1,
                              indices := pyinsert place value indices1,
                              validkeys := validkeys + 1 }
          | _, _ => .error .indexError
  else .error .valueError

/-- `Node.delvalue(key)`: leaf delete.  Note the membership test and
`keys.index` range over the whole `keys` array, padding slots included. -/
def Node.delvalue (node : Node) (key : Bstr) : Except PyErr Node :=
  match pyindex node.keys key with
  | none => .error .keyError
  | some place =>
      let validkeys := node.validkeys
      let prev : Int := validkeys - 1
      match pydel place node.keys, pydel place node.indices with
      | some keys1, some indices1 =>
          .ok { node with keys := pyinsertI prev [] keys1,
                          indices := pyinsertI prev nilseek indices1,
                          validkeys := validkeys - 1 }
      | _, _ => .error .indexError

/-- `Node.getvalue(key)`: leaf point lookup.  `keys.index(key)` searches
the whole array, padding included; `KeyError` only when the byte string
occurs nowhere in it. -/
def Node.getvalue (node : Node) (key : Bstr) : Except PyErr Int :=
  match pyindex node.keys key with
  | none => .error .keyError
  | some place => .ok (node.indices.getD place nilseek)

/-- `Node.put_all_values(keys_indices)`: bulk leaf reload used by the
restructuring code; clears the node then writes the entries in order.
The loop `keys[i], indices[i] := keys_indices[i]` overwrites the first
`|keys_indices|` slots of the cleared arrays. -/
def Node.put_all_values (node : Node) (kis : List (Bstr × Int)) :
    Except PyErr Node :=
  let node := node.clear
  if node.size < kis.length then .error .indexError
  else
    .ok { node with validkeys := (kis.length : Int)
                    keys := kis.map Prod.fst ++ node.keys.drop kis.length
                    indices := kis.map Prod.snd ++ node.indices.drop kis.length }

/-- `Node.put_all_positions(first_position, keys_positions)`: bulk
interior reload; `indices[0] := first_position` and
`keys[i], indices[i+1] := keys_positions[i]`. -/
def Node.put_all_positions (node : Node) (first_position : Int)
    (kps : List (Bstr × Int)) : Except PyErr Node :=
  let node := node.clear
  if node.size < kps.length then .error .indexError
  else
    .ok { node with validkeys := (kps.length : Int)
                    keys := kps.map Prod.fst ++ node.keys.drop kps.length
                    indices := (first_position :: kps.map Prod.snd) ++
                               node.indices.drop (kps.length + 1) }

/-- `Node.newneighbor(position)`: clone a fresh leaf at `position` and
splice it after `self` in the leaf chain; returns the updated self and
the new neighbor. -/
def Node.newneighbor (node : Node) (position : Int) :
    Except PyErr (Node × Node) :=
  if Leafflags.contains node.flag then
    let neighbor0 := nodeClone node position
    let fwd := node.indices.getD node.size nilseek
    let neighbor := { neighbor0 with indices := neighbor0.indices.set node.size fwd }
    .ok ({ node with indices := node.indices.set node.size position }, neighbor)
  else .error .valueError

/-! ### Portable string hash (dbm bucket overlay) -/

/-- `bignum = 0x7efe77`, the modulus of the portable hash ("8 million
buckets"). -/
def bignum : Nat := 0x7efe77

/-- `myhash(s)`: start from `775 + len(s)*1001` and fold each byte `c`
as `h := (h*253 + c*113) % bignum`. -/
def myhash (s : Bstr) : Nat :=
  s.foldl (fun r c => (r * 253 + c * 113) % bignum) (775 + s.length * 1001)

/-- Modelled from the claim's words: the same recurrence with the
modulus `8_320_631` the specification states. -/
def specClaimHash (s : Bstr) : Nat :=
  s.foldl (fun r c => (r * 253 + c * 113) % 8320631) (775 + s.length * 1001)

/-- Modelled from the amended claim's words: fold `h := (h*253 + c*113)
mod 8_322_679` starting from `775 + len(s)*1001`, written as the
explicit loop of the specification text. -/
def specAmendedHashLoop (h : Nat) : Bstr → Nat
  | [] => h
  | c :: cs => specAmendedHashLoop ((h * 253 + c * 113) % 8322679) cs

/-- Hash of the amended claim: loop `specAmendedHashLoop` started at
`775 + len(s)*1001`. -/
def specAmendedHash (s : Bstr) : Nat :=
  specAmendedHashLoop (775 + s.length * 1001) s

/-! ### Marshal codec and the node record format

The source serializes with Python's `marshal`.  For the value shapes a
node record contains — one flat list whose items are machine integers
and byte strings — the marshal format is: a one-byte type tag, then for
an integer four little-endian bytes of its 32-bit two's complement, for
a string a four-byte length followed by the raw bytes, for a list a
four-byte element count followed by the marshalled items. -/

def TYPE_LIST : Nat := 91

def TYPE_INT : Nat := 105

def TYPE_STRING : Nat := 115

/-- Marshallable scalar values appearing inside a node record. -/
inductive MVal where
  | mint (i : Int)
  | mstr (s : Bstr)
  deriving DecidableEq

/-- Four little-endian bytes of `n` (mod 2^32). -/
def le32 (n : Nat) : List Nat :=
  [n % 256, n / 256 % 256, n / 65536 % 256, n / 16777216 % 256]

/-- Value of four little-endian bytes. -/
def unle32 (b0 b1 b2 b3 : Nat) : Nat :=
  b0 + 256 * b1 + 65536 * b2 + 16777216 * b3

/-- `marshal.dumps` of a single scalar. -/
def mdumps : MVal → List Nat
  | .mint i => TYPE_INT :: le32 (i.emod 4294967296).toNat
  | .mstr s => TYPE_STRING :: le32 s.length ++ s

/-- `marshal.dumps` of a flat list of scalars. -/
def mdumpsList (xs : List MVal) : List Nat :=
  TYPE_LIST :: le32 xs.length ++ (xs.map mdumps).flatten

/-- Signed reading of an unsigned 32-bit value. -/
def decInt32 (n : Nat) : Int :=
  if n < 2147483648 then (n : Int) else (n : Int) - 4294967296

/-- Parse one marshalled scalar from the front of a byte stream,
returning the remaining bytes. -/
def parseItem : List Nat → Option (MVal × List Nat)
  | t :: b0 :: b1 :: b2 :: b3 :: rest =>
    if t = TYPE_INT then some (.mint (decInt32 (unle32 b0 b1 b2 b3)), rest)
    else if t = TYPE_STRING then
      let n := unle32 b0 b1 b2 b3
      if n ≤ rest.length then some (.mstr (rest.take n), rest.drop n) else none
    else none
  | _ => none

/-- Parse `n` consecutive marshalled scalars. -/
def parseItems : Nat → List Nat → Option (List MVal × List Nat)
  | 0, rest => some ([], rest)
  | n + 1, bytes =>
    match parseItem bytes with
    | none => none
    | some (v, rest) =>
      match parseItems n rest with
      | none => none
      | some (vs, rest1) => some (v :: vs, rest1)

/-- `marshal.loads` of a flat list of scalars, ignoring trailing bytes
(which marshal never reads). -/
def mloads (bytes : List Nat) : Option (List MVal × List Nat) :=
  match bytes with
  | t :: b0 :: b1 :: b2 :: b3 :: rest =>
    if t = TYPE_LIST then parseItems (unle32 b0 b1 b2 b3) rest else none
  | _ => none

/-- The flat list `[flag, validkeys] + indices + keys` that
`Node.linearize` marshals. -/
def Node.marshalled (node : Node) : List MVal :=
  ([.mint (node.flag : Int), .mint node.validkeys] : List MVal) ++
    node.indices.map .mint ++ node.keys.map .mstr

/-- `Node.linearize()`: marshal the flat list and right-pad with `"X"`
(byte 88) to the fixed record size; `ValueError` if the encoding does
not fit. -/
def Node.linearize (node : Node) : Except PyErr (List Nat) :=
  let s := mdumpsList node.marshalled
  let storage := storageOf node.size node.keylen
  if storage < s.length then .error .valueError
  else .ok (s ++ List.replicate (storage - s.length) 88)

/-- `Node.delinearize(str)`: unmarshal and split the flat list back into
`(flag, validkeys, indices, keys)`; `ValueError` when the parse fails,
when fewer than two leading items exist (the unpacking
`[flag, validkeys] = all[:2]`), or when the keys slice has the wrong
length. -/
def delinearize (size : Nat) (bytes : List Nat) :
    Except PyErr (MVal × MVal × List MVal × List MVal) :=
  match mloads bytes with
  | none => .error .valueError
  | some (all, _) =>
    match all with
    | m0 :: m1 :: _ =>
      let indices := (all.drop 2).take (size + 1)
      let keys := all.drop (2 + size + 1)
      if keys.length ≠ size then .error .valueError
      else .ok (m0, m1, indices, keys)
    | _ => .error .valueError

/-! ### Tree state and the engine (cache-disabled configuration)

The open file is modelled as an association list from seek positions to
the node records stored there; `Node.store()` with the fifo disabled
writes the node at its position, `Node.materialize()` reads it back.
With the fifo enabled the fifo dictionary aliases the live node objects,
so reads still observe the latest writes; the association-list store is
therefore the right read model for the engine in both configurations.
The byte layout of the file is abstracted to one slot per node: `eof`
is the next append position handed out by `getfreenode`. -/

/-- Read the node record stored at a position. -/
def storeGet (store : List (Int × Node)) (p : Int) : Option Node :=
  (store.find? (fun q => q.1 == p)).map (·.2)

/-- Write a node record at its own position. -/
def storePut (store : List (Int × Node)) (node : Node) : List (Int × Node) :=
  (node.position, node) :: store.filter (fun q => q.1 != node.position)

/-- Whole-tree state: stored records plus the header fields
(`length`, `keylen`, `nodesize`, `root_seek`, `free`). -/
structure TState where
  store : List (Int × Node)
  length : Int
  keylen : Nat
  nodesize : Nat
  root_seek : Int
  free : Int
  eof : Int
  deriving DecidableEq

/-- `Node.getnode(key)`: follow the child pointer right of `key` (or
`indices[0]` for `none`).  `ValueError` when `key` is not an exact key
of the node (`keys.index` raises), `IndexError` on a negative position,
`keyError` marks a position absent from the model store (the source
would read undecodable bytes there). -/
def getnode (store : List (Int × Node)) (node : Node) (key : Option Bstr) :
    Except PyErr Node :=
  if Interiorflags.contains node.flag then
    let indexE : Except PyErr Nat :=
      match key with
      | none => .ok 0
      | some k =>
        match pyindex node.keys k with
        | none => .error .valueError
        | some i => .ok (i + 1)
    match indexE with
    | .error e => .error e
    | .ok index =>
      let place := node.indices.getD index nilseek
      if place < 0 then .error .indexError
      else
        match storeGet store place with
        | some child => .ok child
        | none => .error .keyError
  else .error .valueError

/-- `Node.nextneighbor()`: the next leaf in the chain, `none` at the
end.  A forward pointer to a position missing from the model store also
yields `none` (the source would fail decoding raw bytes there): every
store used in a theorem below resolves all its forward pointers. -/
def nextneighborO (store : List (Int × Node)) (node : Node) : Option Node :=
  let position := node.indices.getD node.size nilseek
  if position = nilseek then none else storeGet store position

/-- `Node.getfreenode(freeposition, freenode_callback)`: pop the free
list, or append a fresh node at end of file when the list is empty.
`useCallback` distinguishes the two call sites of the source (the
recursive `set` passes `self.update_freelist`, the root split does
not); the callback updates the header's free pointer. -/
def getfreenode (st : TState) (node : Node) (useCallback : Bool) :
    Except PyErr (Node × Int × TState) :=
  if st.free = nilseek then
    let position := st.eof
    let thenode := nodeClone node position
    .ok (thenode, nilseek,
         { st with store := storePut st.store thenode, eof := st.eof + 1 })
  else
    match storeGet st.store st.free with
    | none => .error .keyError
    | some loaded =>
      let next := loaded.indices.getD 0 nilseek
      let st1 := if useCallback then
                   (if st.free ≠ next then { st with free := next } else st)
                 else st
      let thenode := nodeClone node st.free
      .ok (thenode, next, { st1 with store := storePut st1.store thenode })

/-- Byte string `"dummy"`, the placeholder leftmost key the split paths
of `BplusTree.set` pass to `keys_indices`. -/
def dummyB : Bstr := [100, 117, 109, 109, 121]

/-- `BplusTree.divide_entries(firstindex, node1, node2, entries)`:
divide presorted entries evenly, splitting at
`middle = len(entries)/2 + 1`; returns the leftmost key of `node2`
(for interiors the promoted separator) along with the two reloaded
nodes.  `IndexError` models `right[0]` on an empty right half. -/
def BplusTree.divide_entries (firstindex : Int) (node1 node2 : Node)
    (entries : List (Bstr × Int)) : Except PyErr (Bstr × Node × Node) :=
  let middle := entries.length / 2 + 1
  if Interiorflags.contains node1.flag then
    let left := entries.take middle
    match entries.drop middle with
    | [] => .error .indexError
    | (leftmost, midindex) :: rtail =>
      match node1.put_all_positions firstindex left with
      | .error e => .error e
      | .ok n1 =>
        match node2.put_all_positions midindex rtail with
        | .error e => .error e
        | .ok n2 => .ok (leftmost, n1, n2)
  else
    let left := entries.take middle
    let right := entries.drop middle
    match node1.put_all_values left with
    | .error e => .error e
    | .ok n1 =>
      match node2.put_all_values right with
      | .error e => .error e
      | .ok n2 =>
        match right with
        | [] => .error .indexError
        | (k, _) :: _ => .ok (k, n1, n2)

/-- Python indexing `l[i]` allowing a negative index to count from the
end (`l[-1]` is the last element); out-of-range reads fall back to the
default (the source would raise there; no theorem below exercises an
out-of-range read). -/
def pyget {α : Type u} (l : List α) (i : Int) (d : α) : α :=
  if i < 0 then l.getD (l.length - (-i).toNat) d else l.getD i.toNat d

/-- `BplusTree.set(key, value, node)`: recursive insert.  Returns the
updated tree state and `none`, or `some (leftmostKey, newNode)` when the
node split.  The recursion is measured by explicit fuel; every theorem
below supplies enough fuel for the tree at hand.  Python mutations that
would precede an uncaught exception never occur on the paths the
theorems evaluate, so aborting with `.error` loses no state. -/
def BplusTree.set : Nat → TState → Node → Bstr → Int →
    Except PyErr (TState × Option (Bstr × Node))
  | 0, _, _, _, _ => .error .fuelOut
  | fuel + 1, st, node, key, value =>
    let keys := node.keys
    let validkeys := node.validkeys
    if Interiorflags.contains node.flag then
      let place := bisect bstrLt keys key 0 validkeys.toNat
      let index := if validkeys ≤ (place : Int) || !(bstrLt (keys.getD place []) key)
                   then place else place + 1
      let nodekey := if index = 0 then none
                     else some (pyget keys ((place : Int) - 1) [])
      match getnode st.store node nodekey with
      | .error e => .error e
      | .ok nextnode =>
        match BplusTree.set fuel st nextnode key value with
        | .error e => .error e
        | .ok (st1, none) => .ok (st1, none)
        | .ok (st1, some (leftmost, insertnode)) =>
          match node.putposition leftmost insertnode.position with
          | .ok node1 => .ok ({ st1 with store := storePut st1.store node1 }, none)
          | .error .noRoom =>
            let insertindex := insertnode.position
            match getfreenode st1 node true with
            | .error e => .error e
            | .ok (newnode0, newfree, st2) =>
              let st3 := { st2 with free := newfree }
              let newnode := { newnode0 with flag := Interiorflag }
              match node.keys_indices dummyB with
              | [] => .error .indexError
              | (_, firstindex) :: kiTail =>
                let ki := insort pairLt kiTail (leftmost, insertindex)
                match BplusTree.divide_entries firstindex node newnode ki with
                | .error e => .error e
                | .ok (newleftmost, node1, newnode1) =>
                  .ok ({ st3 with
                         store := storePut (storePut st3.store node1) newnode1 },
                       some (newleftmost, newnode1))
          | .error e => .error e
    else
      let newlength :=
        match pyindex keys key with
        | none => st.length + 1
        | some i => if validkeys ≤ (i : Int) then st.length + 1 else st.length
      match node.putvalue key value with
      | .ok node1 =>
          .ok ({ st with store := storePut st.store node1, length := newlength },
               none)
      | .error .noRoom =>
          let ki := insort pairLt (node.keys_indices dummyB) (key, value)
          match getfreenode st node true with
          | .error e => .error e
          | .ok (alloc, newfree, st2) =>
            let st3 := { st2 with free := newfree }
            match node.newneighbor alloc.position with
            | .error e => .error e
            | .ok (node1, newnode0) =>
              let newnode := { newnode0 with flag := Leafflag }
              match BplusTree.divide_entries 0 node1 newnode ki with
              | .error e => .error e
              | .ok (newleftmost, node2, newnode1) =>
                .ok ({ st3 with
                       store := storePut (storePut st3.store node2) newnode1,
                       length := newlength },
                     some (newleftmost, newnode1))
      | .error e => .error e

/-- `BplusTree.__setitem__(key, value)`: validate, run the recursive
`set` from the root, and split the root when `set` returns a pair.  The
root object of the source is recovered from the store at `root_seek`
(after a split `set` has always stored the mutated root). -/
def BplusTree.setitem (fuel : Nat) (st : TState) (key : Bstr) (value : Int) :
    Except PyErr TState :=
  if st.keylen < key.length then .error .valueError
  else if value < 0 then .error .valueError
  else
    match storeGet st.store st.root_seek with
    | none => .error .valueError
    | some root =>
      match BplusTree.set fuel st root key value with
      | .error e => .error e
      | .ok (st1, none) => .ok st1
      | .ok (st1, some (leftmost, node)) =>
        match storeGet st1.store st.root_seek with
        | none => .error .valueError
        | some root1 =>
          match getfreenode st1 root1 false with
          | .error e => .error e
          | .ok (newroot0, newfree, st2) =>
            let st3 := { st2 with free := newfree }
            let newroot1 := { newroot0 with flag := Rootflag }
            let root2 := if root1.flag = LeafandRootflag
                         then { root1 with flag := Leafflag }
                         else { root1 with flag := Interiorflag }
            match newroot1.clear.putfirstindex root2.position with
            | .error e => .error e
            | .ok newroot2 =>
              match newroot2.putposition leftmost node.position with
              | .error e => .error e
              | .ok newroot3 =>
                .ok { st3 with
                      root_seek := newroot3.position,
                      store := storePut (storePut st3.store newroot3) root2 }

/-- `BplusTree.find(key, node)`: descend from `node` to the leaf that
would hold `key` and look the key up there. -/
def BplusTree.find (store : List (Int × Node)) : Nat → Node → Bstr →
    Except PyErr Int
  | 0, _, _ => .error .fuelOut
  | fuel + 1, node, key =>
    if Interiorflags.contains node.flag then
      let thesekeys := node.keys
      let validkeys := node.validkeys
      let place := bisect bstrLt thesekeys key 0 validkeys.toNat
      let nodekey :=
        if validkeys ≤ (place : Int) || bstrLt key (thesekeys.getD place []) then
          (if place = 0 then none else some (thesekeys.getD (place - 1) []))
        else some key
      match getnode store node nodekey with
      | .error e => .error e
      | .ok child => BplusTree.find store fuel child key
    else node.getvalue key

/-! ### Walker -/

/-- State of a `BplusWalker`: the bounds, the current and starting leaf,
the slot index, and the validity flag.  `node_index` is meaningful only
while `valid` is true (the source initializes it to `None`). -/
structure Walker where
  keylower : Option Bstr
  includelower : Bool
  keyupper : Option Bstr
  includeupper : Bool
  node : Node
  startnode : Node
  node_index : Nat
  valid : Bool
  deriving DecidableEq

/-- Descent loop of `BplusWalker.__init__`: from the root, follow at
each interior node the child under the last separator `≤ keylower`
(the leftmost child when `keylower` is `None` or smaller than every
separator).  A failed child load returns the current node (the source
would raise); the theorems below never hit that path. -/
def walkerDescend (store : List (Int × Node)) : Nat → Node → Option Bstr → Node
  | 0, node, _ => node
  | fuel + 1, node, keylower =>
    if Interiorflags.contains node.flag then
      let nkey :=
        match keylower with
        | none => none
        | some kl =>
          let keys := node.get_keys
          let place := bisect bstrLt keys kl 0 keys.length
          if place = 0 then none
          else if keys.length < place then some (pyget keys (-1) [])
          else some (keys.getD (place - 1) [])
      match getnode store node nkey with
      | .ok child => walkerDescend store fuel child keylower
      | .error _ => node
    else node

/-- `BplusWalker.first()`: position the walker at the first in-range
slot, advancing `startnode` along the leaf chain when the current start
leaf is exhausted (the recursive `self.first()` call of the source, run
on fuel here). -/
def Walker.first (store : List (Int × Node)) : Nat → Walker → Walker
  | 0, w => { w with valid := false }
  | fuel + 1, w0 =>
    let node := w0.startnode
    let keys := node.keys
    let validkeys := node.validkeys
    let w := { w0 with node := node, valid := false }
    let w :=
      match w.keylower with
      | none => { w with node_index := 0, valid := true }
      | some kl =>
        if w.includelower then
          match pyindex keys kl with
          | some index =>
              { w with node_index := index, valid := decide ((index : Int) < validkeys) }
          | none => w
        else w
    let step : Walker ⊕ Walker :=
      if w.valid then .inl w
      else
        let kl := w.keylower.getD []
        let place := bisect bstrLt keys kl 0 validkeys.toNat
        if (place : Int) < validkeys then
          let testk := keys.getD place []
          .inl { w with node_index := place,
                        valid := bstrLt kl testk || (w.includelower && testk == kl) }
        else
          match nextneighborO store node with
          | some nxt => .inr { w with startnode := nxt }
          | none => .inl { w with valid := false }
    match step with
    | .inr w1 => Walker.first store fuel w1
    | .inl w1 =>
      if w1.valid then
        match w1.keyupper with
        | none => w1
        | some ku =>
          let key := w1.node.keys.getD w1.node_index []
          { w1 with valid := bstrLt key ku || (w1.includeupper && key == ku) }
      else w1

/-- `BplusWalker.__init__`: record the bounds, descend to the starting
leaf, and run `first()`. -/
def mkWalker (store : List (Int × Node)) (descFuel firstFuel : Nat) (root : Node)
    (keylower : Option Bstr) (includelower : Bool)
    (keyupper : Option Bstr) (includeupper : Bool) : Walker :=
  let start := walkerDescend store descFuel root keylower
  Walker.first store firstFuel
    { keylower := keylower, includelower := includelower,
      keyupper := keyupper, includeupper := includeupper,
      node := start, startnode := start, node_index := 0, valid := false }

/-- `BplusWalker.next()`: advance one slot, spanning to the next leaf
through the forward pointer, and apply the upper bound. -/
def Walker.next (store : List (Int × Node)) (w : Walker) : Walker :=
  let nextp := w.node_index + 1
  let node := w.node
  if node.validkeys ≤ (nextp : Int) then
    match nextneighborO store node with
    | none => { w with valid := false }
    | some nxt =>
      if nxt.validkeys ≤ (0 : Int) then { w with node := nxt, valid := false }
      else
        let testkey := nxt.keys.getD 0 []
        match w.keyupper with
        | none => { w with node := nxt, node_index := 0, valid := true }
        | some ku =>
          if bstrLt testkey ku || (w.includeupper && testkey == ku) then
            { w with node := nxt, node_index := 0, valid := true }
          else { w with node := nxt, valid := false }
  else
    let testkey := node.keys.getD nextp []
    match w.keyupper with
    | none => { w with node_index := nextp, valid := true }
    | some ku =>
      if bstrLt testkey ku || (w.includeupper && testkey == ku) then
        { w with node_index := nextp, valid := true }
      else { w with valid := false }

/-- Key sequence a walker emits: read `current_key` and call `next`
while `valid`, on fuel. -/
def emitKeys (store : List (Int × Node)) : Nat → Walker → List Bstr
  | 0, _ => []
  | fuel + 1, w =>
    if w.valid then
      w.node.keys.getD w.node_index [] :: emitKeys store fuel (Walker.next store w)
    else []

/-! ### Node fifo (the write-back cache) and `Node.free` -/

/-- Node record as written to disk: the marshalled tuple content
(`dirty` is in-memory bookkeeping and is not part of the record). -/
structure NodeRecord where
  flag : Nat
  validkeys : Int
  indices : List Int
  keys : List Bstr
  deriving DecidableEq

/-- Record content of a node. -/
def nodeRecord (n : Node) : NodeRecord :=
  { flag := n.flag, validkeys := n.validkeys, indices := n.indices, keys := n.keys }

/-- The disk file as seen by `Node.store`/`Node.materialize`: records by
seek position. -/
abbrev FState := List (Int × NodeRecord)

/-- Write a record at a position. -/
def fwrite (file : FState) (p : Int) (r : NodeRecord) : FState :=
  (p, r) :: file.filter (fun q => q.1 != p)

/-- `class Node_Fifo`: the MRU list, its capacity, and the position
dictionary.  In the source the dictionary holds the very node objects;
here it holds their current values, and the identity test `fd[position]
is self` becomes a value equality (they coincide whenever the
dictionary entry is the live node, which is how the engine uses it). -/
structure Node_Fifo where
  fifo : List Node
  fifosize : Nat
  fifo_dict : List (Int × Node)
  deriving DecidableEq

/-- Dictionary lookup by position. -/
def dictGet (d : List (Int × Node)) (p : Int) : Option Node :=
  (d.find? (fun q => q.1 == p)).map (·.2)

/-- Dictionary removal by position. -/
def dictDel (d : List (Int × Node)) (p : Int) : List (Int × Node) :=
  d.filter (fun q => q.1 != p)

/-- `list.remove(x)`: drop the first element equal to `x`. -/
def listRemove (l : List Node) (x : Node) : List Node :=
  match l with
  | [] => []
  | a :: l => if a = x then l else a :: listRemove l x

/-- `Node.add_to_fifo()`: move self to the MRU front (evicting any stale
image at the same position) and, when over capacity, drop the LRU node,
writing it out if dirty (`last.store(1)`). -/
def add_to_fifo (self : Node) (f : Node_Fifo) (file : FState) :
    Node_Fifo × FState :=
  let (ff, dict) :=
    match dictGet f.fifo_dict self.position with
    | some old => (listRemove f.fifo old, dictDel f.fifo_dict self.position)
    | none => (f.fifo, f.fifo_dict)
  let dict := (self.position, self) :: dictDel dict self.position
  let ff := self :: ff
  if f.fifosize < ff.length then
    match ff.getLast? with
    | some last =>
        let ff := ff.dropLast
        let dict := dictDel dict last.position
        let file := if last.dirty then fwrite file last.position (nodeRecord last)
                    else file
        ({ f with fifo := ff, fifo_dict := dict }, file)
    | none => ({ f with fifo := ff, fifo_dict := dict }, file)
  else ({ f with fifo := ff, fifo_dict := dict }, file)

/-- `Node.store(force)`: with the fifo enabled and holding this node,
a non-forced store only marks it dirty and defers the write; otherwise
the record is written at the node's position (and a non-forced store
re-registers the node in the fifo, possibly evicting another). -/
def Node.store (node : Node) (force : Bool) (fifo : Option Node_Fifo)
    (file : FState) : Node × Option Node_Fifo × FState :=
  match fifo with
  | some f =>
    if !force && (dictGet f.fifo_dict node.position = some node) then
      ({ node with dirty := true }, some f, file)
    else
      let file := fwrite file node.position (nodeRecord node)
      let node := { node with dirty := false }
      if !force then
        (node, some (add_to_fifo node f file).1, (add_to_fifo node f file).2)
      else (node, some f, file)
  | none =>
      ({ node with dirty := false }, none,
       fwrite file node.position (nodeRecord node))

/-- The node image `Node.free` builds before storing: flag `Free` and
the next free offset in `indices[0]`. -/
def freeImage (node : Node) (freenodeposition : Int) : Node :=
  { node with flag := Freeflag, indices := node.indices.set 0 freenodeposition }

/-- `Node.free(freenodeposition)`: mark the node free, thread the free
list through `indices[0]`, store (without force), and return the node's
own position as the new free-list head. -/
def Node.free (node : Node) (freenodeposition : Int) (fifo : Option Node_Fifo)
    (file : FState) : Int × Node × Option Node_Fifo × FState :=
  let r := (freeImage node freenodeposition).store false fifo file
  (r.1.position, r.1, r.2.1, r.2.2)

/-- Validation performed by `BplusTree.__init__` (lines 937-953 of the
source): only `keylen` is checked (a given `keylen <= 2` raises
`ValueError`); `nodesize` is stored entirely unvalidated. -/
def BplusTree.initCheck (nodesize keylen : Option Int) : Except PyErr Unit :=
  match nodesize, keylen with
  | _, some k => if k ≤ 2 then .error .valueError else .ok ()
  | _, none => .ok ()

/-! ### Delete restructuring threshold -/

/-- The redistribute-or-merge decision of `BplusTree.remove` (line 1252
of the source): `lki > nodesize or (leftnode.flag != Leafflag and
lki >= nodesize)`, where `lki` is the length of the concatenated entry
list of the sibling pair and `leftflag` the left sibling's flag. -/
def redistributes (leftflag : Nat) (lki nodesize : Nat) : Bool :=
  decide (nodesize < lki) || (!(leftflag == Leafflag) && decide (nodesize ≤ lki))

/-! ### Concrete fixtures used by the theorems -/

/-- A full leaf that is also the root: `S = 2`, keys `"a"`, `"b"`,
payloads 10 and 20, end of leaf chain. -/
def fullLeaf0 : Node :=
  { flag := LeafandRootflag, size := 2, keylen := 10, position := 0,
    validkeys := 2, indices := [10, 20, -1], keys := [[97], [98]], dirty := false }

/-- Tree whose root is the full leaf `fullLeaf0`. -/
def fullTState : TState :=
  { store := [(0, fullLeaf0)], length := 2, keylen := 10,
    nodesize := 2, root_seek := 0, free := -1, eof := 1 }

/-- A freshly created tree: the root is a leaf with zero live entries
(`startup()` with `S = 4`, `keylen = 10`). -/
def emptyRootW : Node :=
  { flag := LeafandRootflag, size := 4, keylen := 10, position := 0,
    validkeys := 0, indices := [-1, -1, -1, -1, -1], keys := [[], [], [], []],
    dirty := false }

/-- Store of the freshly created tree. -/
def emptyStoreW : List (Int × Node) := [(0, emptyRootW)]

/-- A leaf holding the single key `"a"` with payload 5 (a tree of
`length` 1); slots 1..3 are padding. -/
def leafA : Node :=
  { flag := LeafandRootflag, size := 4, keylen := 10, position := 0,
    validkeys := 1, indices := [5, -1, -1, -1, -1], keys := [[97], [], [], []],
    dirty := false }

/-- A clean loaded leaf at position 100, as the fifo would hold it. -/
def cachedLeaf : Node :=
  { flag := Leafflag, size := 2, keylen := 3, position := 100,
    validkeys := 1, indices := [-1, -1, -1], keys := [[97], []], dirty := false }

/-- A fifo whose dictionary holds (the freed image of) `cachedLeaf` at
its position — the state `Node.free(7)` reaches just before its store,
given that the source's dictionary aliases the live node object. -/
def fifoHolding : Node_Fifo :=
  { fifo := [freeImage cachedLeaf 7], fifosize := 33,
    fifo_dict := [(100, freeImage cachedLeaf 7)] }

/-- Test for the `NOROOMERROR` outcome of a node operation. -/
def isNoRoom {α : Type u} : Except PyErr α → Bool
  | .error .noRoom => true
  | _ => false

/-! ### Claim theorems -/

set_option maxRecDepth 8000

/-- C1: the claim says a full leaf rejects a new key with `NoRoom` and
the engine converts that into a split.  In the code the `raise
NOROOMERROR` of `putvalue` is commented out (line 607): a full leaf put
of a new key instead dies with `IndexError` at `del keys[validkeys]`,
and no execution of `putvalue` ever produces `NoRoom`, so the
`except NOROOMERROR` handler of `BplusTree.set` (line 1179) is dead for
leaves and the leaf split is unreachable. -/
theorem C1_leaf_put_noroom_never_raised :
    fullLeaf0.putvalue [99] 7 = .error .indexError ∧
    ∀ (n : Node) (k : Bstr) (v : Int), isNoRoom (n.putvalue k v) = false := by
  refine ⟨rfl, ?_⟩
  intro n k v
  unfold Node.putvalue
  dsimp only
  repeat' split
  all_goals rfl

/-- C2: the claim says a walker emits exactly the in-range live keys,
in particular no keys on a tree with zero live entries.  On the freshly
created tree (zero live keys) the unbounded walker has `valid = 1` and
emits the single padding key `""` — `first()` with `keylower = None`
sets `valid` without consulting `validkeys`. -/
theorem C2_walker_on_empty_tree_emits_a_key :
    emitKeys emptyStoreW 5
      (mkWalker emptyStoreW 3 3 emptyRootW none false none false) = [[]] ∧
    emptyRootW.get_keys = [] := by
  exact ⟨rfl, rfl⟩

/-- C3 counterexample: the two-byte string `"\x00\x00"` separates the
code's hash (modulus `bignum = 0x7efe77 = 8322679`) from the claim's
recurrence with modulus `8320631` (the values are 2976734 and 3019742),
and the hash of the two-byte string `"\xba\xea"` is 8320730, outside
the claimed range `[0, 8320631)`. -/
theorem C3_hash_modulus_counterexample :
    (myhash [0, 0] == specClaimHash [0, 0]) = false ∧
    myhash [0, 0] = 2976734 ∧ specClaimHash [0, 0] = 3019742 ∧
    myhash [186, 234] = 8320730 ∧ 8320631 ≤ myhash [186, 234] := by
  refine ⟨by decide, by decide, by decide, by decide, by decide⟩

/-- The fold of `myhash` agrees with the explicit loop of the amended
specification text. -/
theorem myhash_foldl_eq_loop (s : Bstr) (h : Nat) :
    s.foldl (fun r c => (r * 253 + c * 113) % bignum) h = specAmendedHashLoop h s := by
  induction s generalizing h with
  | nil => rfl
  | cons c cs ih => simpa [specAmendedHashLoop, bignum] using ih _

/-- The loop stays below the modulus as soon as one byte is folded. -/
theorem specAmendedHashLoop_lt (cs : Bstr) (c h : Nat) :
    specAmendedHashLoop h (c :: cs) < 8322679 := by
  induction cs generalizing c h with
  | nil => exact Nat.mod_lt _ (by norm_num)
  | cons d ds ih => exact ih d _

/-- C3 amended: `myhash` folds each byte as `h := (h*253 + c*113) mod
8_322_679` from `775 + len(s)*1001` (the modulus is `bignum = 0x7efe77
= 8_322_679`, not the `8_320_631` the claim states), and consequently
every hash lies in `[0, 8_322_679)`. -/
theorem C3_hash_amended :
    ∀ s : Bstr, myhash s = specAmendedHash s ∧ myhash s < 8322679 := by
  intro s
  refine ⟨myhash_foldl_eq_loop s _, ?_⟩
  cases s with
  | nil => decide
  | cons c cs =>
    rw [show myhash (c :: cs) =
          specAmendedHashLoop (775 + (c :: cs).length * 1001) (c :: cs) from
        myhash_foldl_eq_loop (c :: cs) _]
    exact specAmendedHashLoop_lt cs c _

/-- C4: in the delete restructuring of `BplusTree.remove`, the sibling
pair with concatenated entry list `ki` is redistributed exactly when
`|ki| > S` for leaves and exactly when `|ki| ≥ S` for interior nodes
(the source condition `lki > nodesize or (leftnode.flag != Leafflag and
lki >= nodesize)`); in every other case the else branch merges the pair
into the left sibling and frees the right one. -/
theorem C4_redistribute_threshold (lki S : Nat) :
    (redistributes Leafflag lki S = true ↔ S < lki) ∧
    (redistributes Interiorflag lki S = true ↔ S ≤ lki) := by
  refine ⟨?_, ?_⟩
  · simp [redistributes, Leafflag, Interiorflag]
  · simp [redistributes, Leafflag, Interiorflag]
    omega

/-- C6: the claim says `get` and `delete` raise `KeyNotFound` on every
absent key of length at most `keylen`.  The absent key `""` (length 0)
refutes it on a tree holding only `"a"`: `keys.index` scans the padding
slots, so `get("")` returns the stale payload `-1` of slot 1 and
`delete`'s `delvalue("")` silently removes the padding slot, leaving
`validkeys = 0`, instead of raising. -/
theorem C6_absent_empty_key_not_keyerror :
    BplusTree.find [(0, leafA)] 3 leafA [] = .ok (-1) ∧
    leafA.delvalue [] =
      .ok { leafA with keys := [[], [97], [], []],
                       indices := [-1, 5, -1, -1, -1], validkeys := 0 } := by
  exact ⟨rfl, rfl⟩

/-- C7 counterexample: with the fifo enabled and holding the node,
`Node.free(7)` leaves the file untouched (the non-forced `store()` on
line 714 defers, merely marking the node dirty), refuting "writes the
node record to disk unconditionally". -/
theorem C7_free_deferred_counterexample :
    (cachedLeaf.free 7 (some fifoHolding) []).2.2.2 = ([] : FState) ∧
    (cachedLeaf.free 7 (some fifoHolding) []).2.1.dirty = true := by
  exact ⟨rfl, rfl⟩

/-- C7 amended: `free(nextFreeOffset)` sets the flag to `Free`, writes
`nextFreeOffset` into `indices[0]`, returns the node's own position,
and stores via `store()` without force: the record is written
immediately when the cache is disabled, but when the cache holds the
node the write is deferred and the node is only marked dirty. -/
theorem C7_free_amended (node : Node) (nfp : Int) (fifo : Option Node_Fifo)
    (file : FState) :
    (node.free nfp fifo file).1 = node.position ∧
    (node.free nfp fifo file).2.1.flag = Freeflag ∧
    (node.free nfp fifo file).2.1.indices = node.indices.set 0 nfp ∧
    (node.free nfp none file).2.2.2 =
      fwrite file node.position (nodeRecord (freeImage node nfp)) ∧
    (∀ f, fifo = some f →
      dictGet f.fifo_dict node.position = some (freeImage node nfp) →
      (node.free nfp fifo file).2.2.2 = file ∧
      (node.free nfp fifo file).2.1.dirty = true) := by
  refine ⟨?_, ?_, ?_, rfl, ?_⟩
  · unfold Node.free Node.store freeImage
    cases fifo with
    | none => rfl
    | some f => dsimp only; split <;> rfl
  · unfold Node.free Node.store freeImage
    cases fifo with
    | none => rfl
    | some f => dsimp only; split <;> rfl
  · unfold Node.free Node.store freeImage
    cases fifo with
    | none => rfl
    | some f => dsimp only; split <;> rfl
  · rintro f rfl hd
    have hd2 : dictGet f.fifo_dict (freeImage node nfp).position =
        some (freeImage node nfp) := by
      simpa [freeImage] using hd
    unfold Node.free Node.store
    dsimp only
    rw [hd2]
    simp

/-- Witness for C7: at the concrete fixtures, the cache-disabled free
writes the record at position 100 and the cache-holding free leaves the
file unchanged. -/
theorem C7_free_amended_witness :
    (cachedLeaf.free 9 none []).2.2.2 =
      fwrite [] 100 (nodeRecord (freeImage cachedLeaf 9)) ∧
    (cachedLeaf.free 7 (some fifoHolding) []).2.2.2 = ([] : FState) := by
  refine ⟨?_, ?_⟩
  · have h := (C7_free_amended cachedLeaf 9 none []).2.2.2.1
    simpa [cachedLeaf] using h
  · exact (((C7_free_amended cachedLeaf 7 (some fifoHolding) []).2.2.2.2
      fifoHolding rfl (by decide))).1

/-- C8 counterexample: a node of size 1049 — odd and above 255 — is
constructed without error (the repository's own test builds its tree
with `nodesize = 1049`), and `BplusTree.__init__` accepts the same
nodesize, refuting "constructing a tree or node with a nodesize outside
[2, 255] or odd does not succeed". -/
theorem C8_odd_large_nodesize_accepted :
    (∃ n, Node.init Leafflag 1049 10 0 = .ok n) ∧
    BplusTree.initCheck (some 1049) (some 10) = .ok () := by
  exact ⟨⟨_, rfl⟩, rfl⟩

/-- C8 amended: node construction succeeds for every `size ≥ 0`
regardless of parity or the 255 bound — the checks `size > 255` and
`size % 2 == 1` are commented out in `Node.__init__`, which rejects
only negative sizes — and `BplusTree.__init__` validates only
`keylen > 2`, never `nodesize`. -/
theorem C8_nodesize_unvalidated :
    (∀ (flag : Nat) (size : Int) (keylen : Nat) (position : Int),
      (∃ n, Node.init flag size keylen position = .ok n) ↔ 0 ≤ size) ∧
    (∀ (ns k : Int),
      BplusTree.initCheck (some ns) (some k) = .ok () ↔ 2 < k) := by
  constructor
  · intro flag size keylen position
    constructor
    · rintro ⟨n, hn⟩
      by_contra hneg
      rw [Node.init, if_pos (by omega)] at hn
      exact absurd hn (by simp)
    · intro h
      exact ⟨_, by rw [Node.init, if_neg (by omega)]⟩
  · intro ns k
    constructor
    · intro h
      by_contra hneg
      rw [BplusTree.initCheck] at h
      simp only [if_pos (by omega : k ≤ 2)] at h
      exact absurd h (by simp)
    · intro h
      rw [BplusTree.initCheck]
      simp only [if_neg (by omega : ¬ k ≤ 2)]

/-- C9: the claim says `put(k,v)` twice increments `length` exactly
once in total and leaves `get(k) = v`.  On the reachable tree whose
root leaf is full (`S = 2`, keys `"a"`, `"b"`), every `put("c", 5)`
dies with the uncaught `IndexError` of the commented-out `NOROOMERROR`
path before any state changes, so two puts leave `length = 2` and
`get("c")` still raises `KeyError`. -/
theorem C9_put_on_full_tree_fails :
    BplusTree.setitem 5 fullTState [99] 5 = .error .indexError ∧
    BplusTree.find fullTState.store 5 fullLeaf0 [99] = .error .keyError := by
  exact ⟨rfl, rfl⟩

/-! ### C5: divide_entries -/

/-- Clearing preserves the node size. -/
theorem clear_size (node : Node) : node.clear.size = node.size := by
  unfold Node.clear; split <;> rfl

/-- Clearing preserves the node flag. -/
theorem clear_flag (node : Node) : node.clear.flag = node.flag := by
  unfold Node.clear; split <;> rfl

/-- Shape of a successful `put_all_values`. -/
theorem put_all_values_ok (node : Node) (kis : List (Bstr × Int))
    (h : kis.length ≤ node.size) :
    node.put_all_values kis = .ok
      { node.clear with validkeys := (kis.length : Int),
                        keys := kis.map Prod.fst ++ node.clear.keys.drop kis.length,
                        indices := kis.map Prod.snd ++ node.clear.indices.drop kis.length } := by
  unfold Node.put_all_values
  dsimp only
  rw [if_neg (by rw [clear_size]; omega)]

/-- Shape of a successful `put_all_positions`. -/
theorem put_all_positions_ok (node : Node) (first_position : Int)
    (kps : List (Bstr × Int)) (h : kps.length ≤ node.size) :
    node.put_all_positions first_position kps = .ok
      { node.clear with validkeys := (kps.length : Int),
                        keys := kps.map Prod.fst ++ node.clear.keys.drop kps.length,
                        indices := (first_position :: kps.map Prod.snd) ++
                                   node.clear.indices.drop (kps.length + 1) } := by
  unfold Node.put_all_positions
  dsimp only
  rw [if_neg (by rw [clear_size]; omega)]

/-- `bstrLt` is irreflexive. -/
theorem bstrLt_irrefl (a : Bstr) : bstrLt a a = false := by
  induction a with
  | nil => rfl
  | cons c cs ih => simp [bstrLt, ih]

/-- Live keys of a reloaded node. -/
theorem get_keys_reload (node : Node) (ks rest : List Bstr) (n : Nat)
    (hv : node.validkeys = (n : Int)) (hk : node.keys = ks ++ rest)
    (hn : ks.length = n) :
    node.get_keys = ks := by
  subst hn
  unfold Node.get_keys
  rw [hv, hk]
  rcases Nat.eq_zero_or_pos ks.length with h | h
  · rw [if_pos (by omega)]
    exact (List.eq_nil_of_length_eq_zero h).symm
  · rw [if_neg (by omega), Int.toNat_natCast, List.take_left]

/-- C5: `divide_entries` splits a presorted entry list at
`m = ⌊|entries|/2⌋ + 1`.  For leaves, node1 is reloaded with
`entries[0..m)`, node2 with `entries[m..)`, and `entries[m].key` is
returned.  For interiors, node1 gets `firstindex` plus `entries[0..m)`;
node2 gets `entries[m].childPos` as its first index plus
`entries[m+1..)` as its keyed children; `entries[m].key` is returned as
the promoted separator and (for strictly ascending entries) is absent
from node2's key list. -/
theorem C5_divide_entries (node1 node2 : Node) (firstindex : Int)
    (entries : List (Bstr × Int))
    (hm : entries.length / 2 + 1 < entries.length) :
    ((node1.flag = Leafflag ∧ node2.flag = Leafflag ∧
      entries.length / 2 + 1 ≤ node1.size ∧
      entries.length - (entries.length / 2 + 1) ≤ node2.size) →
      ∃ n1 n2,
        BplusTree.divide_entries firstindex node1 node2 entries =
          .ok ((entries.getD (entries.length / 2 + 1) ([], 0)).1, n1, n2) ∧
        n1.get_keys = (entries.take (entries.length / 2 + 1)).map Prod.fst ∧
        n1.indices.take (entries.length / 2 + 1) =
          (entries.take (entries.length / 2 + 1)).map Prod.snd ∧
        n2.get_keys = (entries.drop (entries.length / 2 + 1)).map Prod.fst ∧
        n2.indices.take (entries.length - (entries.length / 2 + 1)) =
          (entries.drop (entries.length / 2 + 1)).map Prod.snd) ∧
    ((node1.flag = Interiorflag ∧ node2.flag = Interiorflag ∧
      entries.length / 2 + 1 ≤ node1.size ∧
      entries.length - (entries.length / 2 + 2) ≤ node2.size) →
      ∃ n1 n2,
        BplusTree.divide_entries firstindex node1 node2 entries =
          .ok ((entries.getD (entries.length / 2 + 1) ([], 0)).1, n1, n2) ∧
        n1.get_keys = (entries.take (entries.length / 2 + 1)).map Prod.fst ∧
        n1.indices.take (entries.length / 2 + 2) =
          firstindex :: (entries.take (entries.length / 2 + 1)).map Prod.snd ∧
        n2.get_keys = (entries.drop (entries.length / 2 + 2)).map Prod.fst ∧
        n2.indices.take (entries.length - (entries.length / 2 + 1)) =
          (entries.getD (entries.length / 2 + 1) ([], 0)).2 ::
            (entries.drop (entries.length / 2 + 2)).map Prod.snd ∧
        ((entries.map Prod.fst).Pairwise (fun a b => bstrLt a b = true) →
          (entries.getD (entries.length / 2 + 1) ([], 0)).1 ∉ n2.get_keys)) := by
  obtain ⟨pk, pv, hpe⟩ : ∃ a b,
      entries.getD (entries.length / 2 + 1) ([], 0) = (a, b) := ⟨_, _, rfl⟩
  have hgetD : entries.getD (entries.length / 2 + 1) ([], 0) =
      entries[entries.length / 2 + 1] := List.getD_eq_getElem entries ([], 0) hm
  have hdrop : entries.drop (entries.length / 2 + 1) =
      (pk, pv) :: entries.drop (entries.length / 2 + 2) := by
    rw [List.drop_eq_getElem_cons hm, ← hgetD, hpe]
  have hlt : (entries.take (entries.length / 2 + 1)).length =
      entries.length / 2 + 1 := by
    rw [List.length_take]; omega
  constructor
  · rintro ⟨h1, h2, hs1, hs2⟩
    have hcont1 : Interiorflags.contains node1.flag = false := by
      rw [h1]; rfl
    rw [BplusTree.divide_entries]
    dsimp only
    rw [hcont1]
    simp only [Bool.false_eq_true, if_false]
    rw [put_all_values_ok node1 _ (by omega), hdrop,
        put_all_values_ok node2 _
          (by simp only [List.length_cons, List.length_drop]; omega)]
    dsimp only
    refine ⟨_, _, by rw [hpe], ?_, ?_, ?_, ?_⟩
    · exact get_keys_reload _ _ _ _ rfl rfl (by rw [List.length_map])
    · exact List.take_left' (by rw [List.length_map, hlt])
    · exact get_keys_reload _ _ _ _ rfl rfl (by rw [List.length_map])
    · exact List.take_left'
        (by simp only [List.length_map, List.length_cons, List.length_drop]; omega)
  · rintro ⟨h1, h2, hs1, hs2⟩
    have hcont1 : Interiorflags.contains node1.flag = true := by
      rw [h1]; rfl
    rw [BplusTree.divide_entries]
    dsimp only
    rw [hcont1]
    simp only [if_true]
    rw [hdrop]
    dsimp only
    rw [put_all_positions_ok node1 _ _ (by omega),
        put_all_positions_ok node2 _ _ (by rw [List.length_drop]; omega)]
    dsimp only
    refine ⟨_, _, by rw [hpe], ?_, ?_, ?_, ?_, ?_⟩
    · exact get_keys_reload _ _ _ _ rfl rfl (by rw [List.length_map])
    · exact List.take_left' (by simp only [List.length_cons, List.length_map, hlt])
    · exact get_keys_reload _ _ _ _ rfl rfl (by rw [List.length_map])
    · rw [hpe]
      exact List.take_left'
        (by simp only [List.length_cons, List.length_map, List.length_drop]; omega)
    · intro hsorted hmem
      rw [get_keys_reload _
            ((entries.drop (entries.length / 2 + 2)).map Prod.fst) _ _
            rfl rfl (by rw [List.length_map])] at hmem
      rw [hpe] at hmem
      have hLlen : entries.length / 2 + 1 < (entries.map Prod.fst).length := by
        simpa using hm
      have hdropL : (entries.map Prod.fst).drop (entries.length / 2 + 1) =
          (entries.map Prod.fst)[entries.length / 2 + 1] ::
            (entries.map Prod.fst).drop (entries.length / 2 + 2) :=
        List.drop_eq_getElem_cons hLlen
      have hpw : ((entries.map Prod.fst).drop (entries.length / 2 + 1)).Pairwise
          (fun a b => bstrLt a b = true) :=
        hsorted.sublist (List.drop_sublist ..)
      rw [hdropL] at hpw
      have hrel := (List.pairwise_cons.mp hpw).1
      have hmem2 : (pk, pv).1 ∈ (entries.map Prod.fst).drop (entries.length / 2 + 2) := by
        rw [← List.map_drop]
        exact hmem
      have hfirst : (entries.map Prod.fst)[entries.length / 2 + 1] = (pk, pv).1 := by
        rw [List.getElem_map, ← hgetD, hpe]
      have := hrel _ hmem2
      rw [hfirst, bstrLt_irrefl] at this
      exact Bool.false_ne_true this

/-- A leaf of size 4 holding three entries, about to be divided. -/
def leafPairL : Node :=
  { flag := Leafflag, size := 4, keylen := 3, position := 1,
    validkeys := 3, indices := [1, 2, 3, -1, -1], keys := [[97], [98], [99], []],
    dirty := false }

/-- An empty leaf of size 4, the second node of a leaf division. -/
def leafPairR : Node :=
  { flag := Leafflag, size := 4, keylen := 3, position := 2,
    validkeys := 0, indices := [-1, -1, -1, -1, -1], keys := [[], [], [], []],
    dirty := false }

/-- An interior node of size 4, the first node of an interior division. -/
def intPairL : Node :=
  { flag := Interiorflag, size := 4, keylen := 3, position := 1,
    validkeys := 3, indices := [1, 2, 3, 4, -1], keys := [[97], [98], [99], []],
    dirty := false }

/-- An empty interior node of size 4. -/
def intPairR : Node :=
  { flag := Interiorflag, size := 4, keylen := 3, position := 2,
    validkeys := -1, indices := [-1, -1, -1, -1, -1], keys := [[], [], [], []],
    dirty := false }

/-- Witness for C5: dividing three leaf entries promotes `entries[2]`'s
key `"c"`, and dividing five interior entries promotes `entries[3]`'s
key `"d"`. -/
theorem C5_divide_entries_witness :
    (∃ n1 n2, BplusTree.divide_entries 0 leafPairL leafPairR
        [([97], 1), ([98], 2), ([99], 3)] = .ok ([99], n1, n2)) ∧
    (∃ n1 n2, BplusTree.divide_entries 7 intPairL intPairR
        [([97], 1), ([98], 2), ([99], 3), ([100], 4), ([101], 5)] =
          .ok ([100], n1, n2)) := by
  constructor
  · obtain ⟨n1, n2, h, -, -, -, -⟩ :=
      (C5_divide_entries leafPairL leafPairR 0 [([97], 1), ([98], 2), ([99], 3)]
        (by decide)).1 ⟨rfl, rfl, by decide, by decide⟩
    exact ⟨n1, n2, h⟩
  · obtain ⟨n1, n2, h, -, -, -, -, -⟩ :=
      (C5_divide_entries intPairL intPairR 7
        [([97], 1), ([98], 2), ([99], 3), ([100], 4), ([101], 5)]
        (by decide)).2 ⟨rfl, rfl, by decide, by decide⟩
    exact ⟨n1, n2, h⟩

/-! ### C10: codec round trip -/

/-- Reading back the four little-endian bytes of a 32-bit value. -/
theorem unle32_le32 (n : Nat) (h : n < 4294967296) :
    unle32 (n % 256) (n / 256 % 256) (n / 65536 % 256) (n / 16777216 % 256) = n := by
  unfold unle32
  omega

/-- Decoding an unsigned 32-bit image of an integer in signed range. -/
theorem decInt32_eq (n : Nat) (i : Int) (hn : (n : Int) = i % 4294967296)
    (h1 : -2147483648 ≤ i) (h2 : i < 2147483648) : decInt32 n = i := by
  unfold decInt32
  split <;> omega

/-- Decoding the unsigned 32-bit image of an integer in signed range. -/
theorem decInt32_enc (i : Int) (h1 : -2147483648 ≤ i) (h2 : i < 2147483648) :
    decInt32 (i.emod 4294967296).toNat = i :=
  decInt32_eq _ i (Int.toNat_of_nonneg (Int.emod_nonneg i (by norm_num))) h1 h2

/-- Well-formed scalars: integers in 32-bit signed range, strings with
a 32-bit length. -/
def MVal.wf : MVal → Prop
  | .mint i => -2147483648 ≤ i ∧ i < 2147483648
  | .mstr s => s.length < 4294967296

/-- Parsing inverts dumping for a 32-bit integer. -/
theorem parseItem_mint (i : Int) (h1 : -2147483648 ≤ i) (h2 : i < 2147483648)
    (rest : List Nat) :
    parseItem (mdumps (.mint i) ++ rest) = some (.mint i, rest) := by
  have hb : (i.emod 4294967296).toNat < 4294967296 := by
    have hnn : 0 ≤ i.emod 4294967296 := Int.emod_nonneg i (by norm_num)
    have hlt : i.emod 4294967296 < 4294967296 :=
      Int.emod_lt_of_pos i (by norm_num)
    omega
  simp only [mdumps, le32, List.cons_append, List.nil_append, parseItem]
  rw [if_pos trivial, unle32_le32 _ hb, decInt32_enc i h1 h2]

/-- Parsing inverts dumping for a byte string. -/
theorem parseItem_mstr (s : Bstr) (h : s.length < 4294967296) (rest : List Nat) :
    parseItem (mdumps (.mstr s) ++ rest) = some (.mstr s, rest) := by
  simp only [mdumps, le32, List.cons_append, List.append_assoc, List.nil_append,
             parseItem]
  rw [if_neg (by decide), if_pos trivial]
  rw [unle32_le32 _ h]
  rw [if_pos (by rw [List.length_append]; omega)]
  rw [List.take_left, List.drop_left]

/-- Parsing inverts dumping for any well-formed scalar. -/
theorem parseItem_mdumps (v : MVal) (hv : v.wf) (rest : List Nat) :
    parseItem (mdumps v ++ rest) = some (v, rest) := by
  cases v with
  | mint i => exact parseItem_mint i hv.1 hv.2 rest
  | mstr s => exact parseItem_mstr s hv rest

/-- Parsing inverts dumping for a sequence of well-formed scalars. -/
theorem parseItems_mdumps (xs : List MVal) (hw : ∀ v ∈ xs, v.wf)
    (rest : List Nat) :
    parseItems xs.length ((xs.map mdumps).flatten ++ rest) = some (xs, rest) := by
  induction xs generalizing rest with
  | nil => rfl
  | cons v vs ih =>
    simp only [List.map_cons, List.flatten_cons, List.length_cons,
               List.append_assoc, parseItems]
    rw [parseItem_mdumps v (hw v (by simp)) _]
    dsimp only
    rw [ih (fun u hu => hw u (by simp [hu])) rest]

/-- `mloads` inverts `mdumpsList` and never reads the trailing bytes. -/
theorem mloads_mdumpsList (xs : List MVal) (hw : ∀ v ∈ xs, v.wf)
    (hc : xs.length < 4294967296) (rest : List Nat) :
    mloads (mdumpsList xs ++ rest) = some (xs, rest) := by
  simp only [mdumpsList, le32, List.cons_append, List.append_assoc,
             List.nil_append, mloads]
  rw [if_pos trivial, unle32_le32 _ hc]
  exact parseItems_mdumps xs hw rest

/-- C10: for every node image with `|keys| = S` and `|indices| = S+1`
whose marshalled form fits within the record size `R(S, keylen)` (and
whose integers are 32-bit machine integers, as they are on disk),
`linearize` produces exactly `R` bytes and `delinearize` restores
`flag`, `validkeys`, `indices` and `keys`. -/
theorem C10_codec_roundtrip (node : Node)
    (hkeys : node.keys.length = node.size)
    (hind : node.indices.length = node.size + 1)
    (hfit : (mdumpsList node.marshalled).length ≤ storageOf node.size node.keylen)
    (hflag : (node.flag : Int) < 2147483648)
    (hvk1 : -2147483648 ≤ node.validkeys) (hvk2 : node.validkeys < 2147483648)
    (hidx : ∀ i ∈ node.indices, -2147483648 ≤ i ∧ i < 2147483648)
    (hklen : ∀ k ∈ node.keys, k.length < 4294967296)
    (hcount : node.marshalled.length < 4294967296) :
    ∃ bs, node.linearize = .ok bs ∧
      bs.length = storageOf node.size node.keylen ∧
      delinearize node.size bs =
        .ok (.mint (node.flag : Int), .mint node.validkeys,
             node.indices.map .mint, node.keys.map .mstr) := by
  have hwf : ∀ v ∈ node.marshalled, v.wf := by
    intro v hv
    unfold Node.marshalled at hv
    simp only [List.cons_append, List.nil_append, List.mem_cons,
               List.mem_append, List.mem_map] at hv
    rcases hv with h | h | ⟨i, hi, rfl⟩ | ⟨k, hk, rfl⟩
    · subst h
      exact ⟨by omega, hflag⟩
    · subst h
      exact ⟨hvk1, hvk2⟩
    · exact hidx i hi
    · exact hklen k hk
  have hlin : node.linearize =
      .ok (mdumpsList node.marshalled ++
        List.replicate (storageOf node.size node.keylen -
          (mdumpsList node.marshalled).length) 88) := by
    unfold Node.linearize
    dsimp only
    rw [if_neg (by omega)]
  refine ⟨_, hlin, ?_, ?_⟩
  · rw [List.length_append, List.length_replicate]
    omega
  · unfold delinearize
    rw [mloads_mdumpsList node.marshalled hwf hcount _]
    have hsplit : node.marshalled =
        MVal.mint (node.flag : Int) :: MVal.mint node.validkeys ::
          (node.indices.map MVal.mint ++ node.keys.map MVal.mstr) := by
      unfold Node.marshalled
      simp
    rw [hsplit]
    dsimp only
    rw [show List.drop 2 (MVal.mint (node.flag : Int) :: MVal.mint node.validkeys ::
          (node.indices.map MVal.mint ++ node.keys.map MVal.mstr)) =
        node.indices.map MVal.mint ++ node.keys.map MVal.mstr from rfl]
    rw [List.take_left' (by rw [List.length_map, hind])]
    rw [show 2 + node.size + 1 = node.size + 1 + 1 + 1 from by omega]
    rw [List.drop_succ_cons, List.drop_succ_cons,
        List.drop_left' (by rw [List.length_map, hind])]
    rw [if_neg (by rw [List.length_map, hkeys]; omega)]

/-- A small concrete node for the codec witness. -/
def nodeC10 : Node :=
  { flag := Leafflag, size := 2, keylen := 3, position := 55,
    validkeys := 1, indices := [9, -1, -1], keys := [[97, 98], []],
    dirty := false }

/-- Witness for C10: the concrete node round-trips through the codec
with a record of exactly `storageOf 2 3 = 46` bytes. -/
theorem C10_codec_roundtrip_witness :
    ∃ bs, nodeC10.linearize = .ok bs ∧
      bs.length = storageOf 2 3 ∧
      delinearize 2 bs =
        .ok (.mint 4, .mint 1, [.mint 9, .mint (-1), .mint (-1)],
             [.mstr [97, 98], .mstr []]) := by
  exact C10_codec_roundtrip nodeC10 rfl rfl (by decide) (by decide)
    (by decide) (by decide) (by decide) (by decide) (by decide)

end BPT
